import Mathlib

/-!
Verification of the x-ray tile generation core (`src/xray/src/generation.rs`).

The Rust code is shallowly embedded as follows.

* `f64` values are idealized as exact rationals (`ℚ`); the transcendental
  logarithm used by the x-ray brightness formula is modelled over `ℝ`.
* Rust numeric casts (`as u32`, `as u8`, `as i64`) truncate toward zero and
  saturate at the bounds of the target type; the corresponding Lean functions
  (`f64ToU32`, `f64ToU8R`, `f64ToI64`) implement exactly that.
* The `FnvHashMap` accumulators of the coloring strategies are modelled
  extensionally as functions from keys to `Option` values; `FnvHashSet` is a
  `Finset`.
* Rust panics (`expect`, out-of-bounds indexing, failing `assert!`) are
  modelled by `Option` results (`none` = panic).
-/

/-- A 3-d point, mirroring `nalgebra::Point3`. -/
structure Point3 (α : Type) where
  x : α
  y : α
  z : α
deriving DecidableEq

/-- A 4-channel color, mirroring `point_viewer::color::Color<T>`. -/
structure Color (α : Type) where
  red : α
  green : α
  blue : α
  alpha : α
deriving DecidableEq

/-- An axis-aligned bounding box over idealized `f64` coordinates,
mirroring `point_viewer::geometry::Aabb<f64>`. -/
structure Aabb where
  min : Point3 ℚ
  max : Point3 ℚ
deriving DecidableEq

/-- Diagonal of a bounding box (`bbox.diag()` = `max - min`). -/
def Aabb.diag (b : Aabb) : Point3 ℚ :=
  ⟨b.max.x - b.min.x, b.max.y - b.min.y, b.max.z - b.min.z⟩

/-- The constant `NUM_Z_BUCKETS = 1024.` from the source. -/
def NUM_Z_BUCKETS : ℚ := 1024

/-- Rust `as u32` applied to an (idealized) `f64`: truncation toward zero,
saturating at `0` and `u32::MAX`.  For negative inputs `Int.toNat ⌊q⌋ = 0`,
which agrees with truncation toward zero followed by saturation at 0. -/
def f64ToU32 (q : ℚ) : ℕ :=
  min (2 ^ 32 - 1) (Int.toNat ⌊q⌋)

/-- Rust `as u8` applied to an (idealized) `f64` value, over `ℝ` because the
x-ray brightness involves real logarithms: truncation toward zero saturating
at `0` and `255`. -/
noncomputable def f64ToU8R (x : ℝ) : ℕ :=
  min 255 (Int.toNat ⌊x⌋)

/-- Truncation of a rational toward zero (the rounding mode of Rust
float-to-int casts). -/
def ratTruncTowardZero (q : ℚ) : ℤ :=
  if 0 ≤ q then ⌊q⌋ else ⌈q⌉

/-- Rust `as i64` applied to an (idealized) `f64`: truncation toward zero,
saturating at the `i64` bounds. -/
def f64ToI64 (q : ℚ) : ℤ :=
  max (-(2 ^ 63)) (min (2 ^ 63 - 1) (ratTruncTowardZero q))

/-- Discretization of a single point position performed by the default
`ColoringStrategy::process_point_data` implementation (generation.rs lines
126-130): pixel coordinates with inverted y, and a z bucket. -/
def discretize (bbox : Aabb) (imageSize : ℕ × ℕ) (pos : Point3 ℚ) : Point3 ℕ :=
  ⟨f64ToU32 ((pos.x - bbox.min.x) / bbox.diag.x * (imageSize.1 : ℚ)),
   f64ToU32 ((1 - (pos.y - bbox.min.y) / bbox.diag.y) * (imageSize.2 : ℚ)),
   f64ToU32 ((pos.z - bbox.min.z) / bbox.diag.z * NUM_Z_BUCKETS)⟩

/-- The 1-d attribute payloads that can appear in a `PointsBatch`
(`point_viewer::attributes::AttributeData`), idealizing floats as rationals. -/
inductive AttributeData where
  | U8 : List ℕ → AttributeData
  | I64 : List ℤ → AttributeData
  | F32 : List ℚ → AttributeData
  | F64 : List ℚ → AttributeData
  | U8Vec3 : List (ℕ × ℕ × ℕ) → AttributeData
deriving DecidableEq

/-- A batch of points together with named attribute arrays
(`point_viewer::PointsBatch`). -/
structure PointsBatch where
  position : List (Point3 ℚ)
  attributes : List (String × AttributeData)
deriving DecidableEq

/-- Lookup of an attribute by name (the `attributes.get(name)` hash-map
lookup, modelled on the association list). -/
def lookupAttr : List (String × AttributeData) → String → Option AttributeData
  | [], _ => none
  | (k, v) :: rest, name => if k = name then some v else lookupAttr rest name

/-- The list of discretized locations produced for a batch by the default
`process_point_data` implementation, one per position and in batch order. -/
def discretizedLocations (batch : PointsBatch) (bbox : Aabb) (imageSize : ℕ × ℕ) :
    List (Point3 ℕ) :=
  batch.position.map (discretize bbox imageSize)

/-- `BinnedColoringStrategy::bins` (generation.rs lines 146-162): with binning
`some (name, size)` the bin key of each attribute value `e` is
`(e as f64 / size) as i64`; with binning `none` every point gets key `0`.
`none` as a result models the panics (missing attribute / non-1-d attribute
data, on which the `match_1d_attr_data` macro has no arm). -/
def binsOf (binning : Option (String × ℚ)) (batch : PointsBatch) : Option (List ℤ) :=
  match binning with
  | none => some (List.replicate batch.position.length 0)
  | some (attribName, size) =>
    match lookupAttr batch.attributes attribName with
    | none => none
    | some (AttributeData.U8 v) => some (v.map (fun e => f64ToI64 ((e : ℚ) / size)))
    | some (AttributeData.I64 v) => some (v.map (fun e => f64ToI64 ((e : ℚ) / size)))
    | some (AttributeData.F32 v) => some (v.map (fun e => f64ToI64 (e / size)))
    | some (AttributeData.F64 v) => some (v.map (fun e => f64ToI64 (e / size)))
    | some (AttributeData.U8Vec3 _) => none

/-- The accumulator of `XRayColoringStrategy`: the hash map
`z_buckets : FnvHashMap<(u32, u32), FnvHashSet<u32>>`, modelled extensionally. -/
def XRayZBuckets : Type := (ℕ × ℕ) → Option (Finset ℕ)

/-- The freshly created (empty) x-ray accumulator. -/
def xrayEmpty : XRayZBuckets := fun _ => none

/-- One step of `XRayColoringStrategy::process_discretized_point_data`:
`z_buckets.entry((x, y)).or_default().insert(z)`. -/
def xrayInsert (s : XRayZBuckets) (d : Point3 ℕ) : XRayZBuckets :=
  fun k => if k = (d.x, d.y) then some (insert d.z ((s k).getD ∅)) else s k

/-- `XRayColoringStrategy::process_discretized_point_data`: fold the inserts
over the discretized locations in order. -/
def xrayProcessDiscretized (s : XRayZBuckets) (ds : List (Point3 ℕ)) : XRayZBuckets :=
  ds.foldl xrayInsert s

/-- The gray value computed by `XRayColoringStrategy::get_pixel_color` for a
column holding `n` distinct z buckets:
`((1. - (n as f64).ln() / max_saturation) * 255.) as u8` with
`max_saturation = NUM_Z_BUCKETS.ln()`. -/
noncomputable def xrayPixelValue (n : ℕ) : ℕ :=
  f64ToU8R ((1 - Real.log (n : ℝ) / Real.log 1024) * 255)

/-- `XRayColoringStrategy::get_pixel_color` (generation.rs lines 192-203). -/
noncomputable def xrayGetPixelColor (s : XRayZBuckets) (x y : ℕ) : Option (Color ℕ) :=
  (s (x, y)).map (fun zs =>
    let value := xrayPixelValue zs.card
    ⟨value, value, value, 255⟩)

/-- The distinct z-bucket indices that a list of discretized locations
contributes to pixel `(x, y)`. -/
def zSet (ds : List (Point3 ℕ)) (x y : ℕ) : Finset ℕ :=
  ((ds.filter (fun d => d.x == x && d.y == y)).map (fun d => d.z)).toFinset

/-- `PerColumnData<T>`: running sum and count for one bin of one column. -/
structure PerColumnData (α : Type) where
  sum : α
  count : ℕ
deriving DecidableEq

/-- The accumulator of `IntensityColoringStrategy`:
`FnvHashMap<(u32, u32), FnvHashMap<i64, PerColumnData<f32>>>`, modelled
extensionally (two nested maps). -/
def IntensityPerColumnData : Type := (ℕ × ℕ) → Option (ℤ → Option (PerColumnData ℚ))

/-- The freshly created (empty) intensity accumulator. -/
def intensityEmpty : IntensityPerColumnData := fun _ => none

/-- One accumulation step of the intensity strategy:
`per_column_data.entry((x, y)).or_default()`, then
`entry(bin).or_default()`, then `sum += intensity; count += 1`. -/
def intensityUpdate (m : IntensityPerColumnData) (loc : Point3 ℕ) (bin : ℤ)
    (intensity : ℚ) : IntensityPerColumnData :=
  fun k =>
    if k = (loc.x, loc.y) then
      let inner := (m k).getD (fun _ => none)
      some (fun b =>
        if b = bin then
          let binData := (inner b).getD ⟨0, 0⟩
          some ⟨binData.sum + intensity, binData.count + 1⟩
        else inner b)
    else m k

/-- The indexed loop of `IntensityColoringStrategy::process_discretized_point_data`
(generation.rs lines 252-264): iterate over the intensity values; a negative
intensity returns immediately with the state accumulated so far; running out
of locations or bins while intensities remain models the out-of-bounds panic. -/
def intensityLoop :
    List ℚ → List (Point3 ℕ) → List ℤ → IntensityPerColumnData →
      Option IntensityPerColumnData
  | [], _, _, m => some m
  | intensity :: is, locs, bs, m =>
    if intensity < 0 then some m
    else
      match locs, bs with
      | loc :: ls, b :: brest => intensityLoop is ls brest (intensityUpdate m loc b intensity)
      | _, _ => none

/-- `IntensityColoringStrategy::process_discretized_point_data`
(generation.rs lines 241-266): compute the bins, fetch the `intensity`
attribute (panicking if absent), and run the loop only when it is an `F32`
array (`if let AttributeData::F32 ...`, silently skipping otherwise). -/
def intensityProcessDiscretized (binning : Option (String × ℚ)) (batch : PointsBatch)
    (locs : List (Point3 ℕ)) (m : IntensityPerColumnData) :
    Option IntensityPerColumnData :=
  match binsOf binning batch with
  | none => none
  | some bs =>
    match lookupAttr batch.attributes ("intensity") with
    | none => none
    | some (AttributeData.F32 intensityVec) => intensityLoop intensityVec locs bs m
    | some _ => some m

/-- Sequential processing of several (batch, locations) pairs by the
intensity strategy, threading the accumulator. -/
def intensityProcessBatches (binning : Option (String × ℚ)) :
    IntensityPerColumnData → List (PointsBatch × List (Point3 ℕ)) →
      Option IntensityPerColumnData
  | m, [] => some m
  | m, (batch, locs) :: rest =>
    match intensityProcessDiscretized binning batch locs m with
    | none => none
    | some m2 => intensityProcessBatches binning m2 rest

/-- Zip three lists into a list of triples, stopping at the shortest. -/
def zip3 {α β γ : Type} : List α → List β → List γ → List (α × β × γ)
  | a :: as, b :: bs, c :: cs => (a, b, c) :: zip3 as bs cs
  | _, _, _ => []

/-- Unconditional accumulation of (intensity, location, bin) triples, used to
describe the state the intensity loop reaches after a clean prefix. -/
def intensityAccum (m : IntensityPerColumnData) (l : List (ℚ × Point3 ℕ × ℤ)) :
    IntensityPerColumnData :=
  l.foldl (fun acc t => intensityUpdate acc t.2.1 t.2.2 t.1) m

/-- Componentwise color addition (including alpha), as for `Color<f32>`. -/
def colorAdd (a b : Color ℚ) : Color ℚ :=
  ⟨a.red + b.red, a.green + b.green, a.blue + b.blue, a.alpha + b.alpha⟩

/-- Conversion of a `u8` RGB triple to a `Color<f32>` with alpha 255, as in
the color strategy (`Color::<u8> { .., alpha: 255 }.to_f32()`). -/
def u8ColorToF32 (c : ℕ × ℕ × ℕ) : Color ℚ :=
  ⟨(c.1 : ℚ) / 255, (c.2.1 : ℚ) / 255, (c.2.2 : ℚ) / 255, (255 : ℚ) / 255⟩

/-- The accumulator of `PointColorColoringStrategy`, modelled extensionally. -/
def ColorPerColumnData : Type :=
  (ℕ × ℕ) → Option (ℤ → Option (PerColumnData (Color ℚ)))

/-- The freshly created (empty) color accumulator. -/
def colorEmpty : ColorPerColumnData := fun _ => none

/-- One accumulation step of the color strategy. -/
def colorUpdate (m : ColorPerColumnData) (loc : Point3 ℕ) (bin : ℤ)
    (c : Color ℚ) : ColorPerColumnData :=
  fun k =>
    if k = (loc.x, loc.y) then
      let inner := (m k).getD (fun _ => none)
      some (fun b =>
        if b = bin then
          let binData := (inner b).getD ⟨⟨0, 0, 0, 0⟩, 0⟩
          some ⟨colorAdd binData.sum c, binData.count + 1⟩
        else inner b)
    else m k

/-- The indexed loop of `PointColorColoringStrategy::process_discretized_point_data`
(generation.rs lines 332-347). -/
def colorLoop :
    List (ℕ × ℕ × ℕ) → List (Point3 ℕ) → List ℤ → ColorPerColumnData →
      Option ColorPerColumnData
  | [], _, _, m => some m
  | c :: cs, locs, bs, m =>
    match locs, bs with
    | loc :: ls, b :: brest => colorLoop cs ls brest (colorUpdate m loc b (u8ColorToF32 c))
    | _, _ => none

/-- `PointColorColoringStrategy::process_discretized_point_data`
(generation.rs lines 320-349): compute the bins, fetch the `color` attribute
(panicking if absent), and accumulate only when it is a `U8Vec3` array
(`if let AttributeData::U8Vec3 ...`, silently skipping otherwise). -/
def colorProcessDiscretized (binning : Option (String × ℚ)) (batch : PointsBatch)
    (locs : List (Point3 ℕ)) (m : ColorPerColumnData) : Option ColorPerColumnData :=
  match binsOf binning batch with
  | none => none
  | some bs =>
    match lookupAttr batch.attributes ("color") with
    | none => none
    | some (AttributeData.U8Vec3 colorVec) => colorLoop colorVec locs bs m
    | some _ => some m

/-- An RGBA image, modelled as dimensions plus a pixel function
(`image::RgbaImage`). -/
structure Image where
  width : ℕ
  height : ℕ
  pix : ℕ → ℕ → Color ℕ

/-- `RgbaImage::from_pixel`: a `w × h` image filled with one color. -/
def imageFromPixel (w h : ℕ) (c : Color ℕ) : Image :=
  ⟨w, h, fun _ _ => c⟩

/-- `GenericImage::copy_from(src, xo, yo)`: paste `src` into `dst` with its
top-left corner at `(xo, yo)`, replacing all channels. -/
def copyFrom (dst src : Image) (xo yo : ℕ) : Image :=
  { dst with
    pix := fun x y =>
      if xo ≤ x ∧ x < xo + src.width ∧ yo ≤ y ∧ y < yo + src.height then
        src.pix (x - xo) (y - yo)
      else dst.pix x y }

/-- Paste an optional child (`if let Some(ref img) = children[id]`). -/
def pasteChild (img : Image) (child : Option Image) (xoffs yoffs : ℕ) : Image :=
  match child with
  | some c => copyFrom img c xoffs yoffs
  | none => img

/-- The composite image built by `build_parent` once the common child size is
known: a `2N × 2N` background-filled image with the four optional children
pasted in the fixed order `(1,0,0), (0,0,N), (3,N,0), (2,N,N)`. -/
def buildParentComposite (children : Fin 4 → Option Image) (bg : Color ℕ)
    (childSizePx : ℕ) : Image :=
  pasteChild
    (pasteChild
      (pasteChild
        (pasteChild (imageFromPixel (2 * childSizePx) (2 * childSizePx) bg)
          (children 1) 0 0)
        (children 0) 0 childSizePx)
      (children 3) childSizePx 0)
    (children 2) childSizePx childSizePx

/-- The width of the first present child, as found by the checking loop of
`build_parent` (generation.rs lines 419-436). -/
def firstChildWidth (children : Fin 4 → Option Image) : Option ℕ :=
  match children 0 with
  | some c => some c.width
  | none =>
    match children 1 with
    | some c => some c.width
    | none =>
      match children 2 with
      | some c => some c.width
      | none => (children 3).map Image.width

/-- The `assert_eq!` checks of `build_parent`: every present child is square
with the given side length. -/
def childSizesOk (children : Fin 4 → Option Image) (n : ℕ) : Bool :=
  (List.finRange 4).all fun i =>
    match children i with
    | none => true
    | some c => c.width == n && c.height == n

/-- `build_parent` (generation.rs lines 416-457): `none` models the panics
(`expect` when no child is present, failing `assert_eq!` on sizes). -/
def build_parent (children : Fin 4 → Option Image) (tileBackgroundColor : Color ℕ) :
    Option Image :=
  match firstChildWidth children with
  | none => none
  | some n =>
    if childSizesOk children n then
      some (buildParentComposite children tileBackgroundColor n)
    else none

/-- The pixel a quadrant of the parent shows at offset `(x, y)`: the child
pixel when the child is present, the background color otherwise. -/
def childPixOr (child : Option Image) (bg : Color ℕ) (x y : ℕ) : Color ℕ :=
  match child with
  | some c => c.pix x y
  | none => bg

/-- The per-pixel closure of `assign_background_color` (generation.rs line
710): pixels whose alpha is below 128 become the configured background color
(verbatim), all other pixels are kept. -/
def assignBackgroundColorPixel (backgroundColor p : Color ℕ) : Color ℕ :=
  if p.alpha < 128 then backgroundColor else p

/-- `imageproc::map::map_colors`: apply a color function to every pixel. -/
def mapColors (f : Color ℕ → Color ℕ) (img : Image) : Image :=
  ⟨img.width, img.height, fun x y => f (img.pix x y)⟩

/-- The per-image work of `assign_background_color` (generation.rs lines
705-711), with the PNG decoding and encoding abstracted away. -/
def assignBackgroundColorImage (tileBackgroundColor : Color ℕ) (img : Image) : Image :=
  mapColors (assignBackgroundColorPixel tileBackgroundColor) img

/-- Modelled from the spec: the constant `TRANSPARENT = (0,0,0,0)` of
`point_viewer::color` (not under src/), quantized to `u8`. -/
def TRANSPARENT_U8 : Color ℕ := ⟨0, 0, 0, 0⟩

/-- Modelled from the spec: the constant `WHITE = (1,1,1,1)` of
`point_viewer::color` (not under src/), quantized to `u8`. -/
def WHITE_U8 : Color ℕ := ⟨255, 255, 255, 255⟩

/-- The CLI tile background argument (generation.rs lines 44-60). -/
inductive TileBackgroundColorArgument where
  | white
  | transparent
deriving DecidableEq

/-- `TileBackgroundColorArgument::to_color`. -/
def TileBackgroundColorArgument.to_color : TileBackgroundColorArgument → Color ℕ
  | TileBackgroundColorArgument.white => WHITE_U8
  | TileBackgroundColorArgument.transparent => TRANSPARENT_U8

/-- A square 2-d rect given by its minimum corner and edge length
(`quadtree::Rect`). -/
structure Rect where
  x : ℚ
  y : ℚ
  size : ℚ
deriving DecidableEq

/-- The doubling loop of `find_quadtree_bounding_rect_and_levels`
(generation.rs lines 527-533), with explicit fuel: returns the number of
doublings performed and the final edge length. -/
def findLevelsAux (diagX diagY : ℚ) : ℕ → ℚ → ℕ × ℚ
  | 0, cur => (0, cur)
  | fuel + 1, cur =>
    if cur < diagX ∨ cur < diagY then
      let r := findLevelsAux diagX diagY fuel (2 * cur)
      (r.1 + 1, r.2)
    else (0, cur)

/-- Enough fuel for the doubling loop to terminate on its own. -/
def levelFuel (diagX diagY tileSizeM : ℚ) : ℕ :=
  (⌈max diagX diagY / tileSizeM⌉).toNat + 1

/-- `find_quadtree_bounding_rect_and_levels` (generation.rs lines 521-538). -/
def find_quadtree_bounding_rect_and_levels (bbox : Aabb) (tileSizePx : ℕ)
    (pixelSizeM : ℚ) : Rect × ℕ :=
  let tileSizeM : ℚ := (tileSizePx : ℚ) * pixelSizeM
  let diag := bbox.diag
  let r := findLevelsAux diag.x diag.y (levelFuel diag.x diag.y tileSizeM) tileSizeM
  (⟨bbox.min.x, bbox.min.y, r.2⟩, r.1)

theorem f64ToU32_eq_floor_toNat (t : ℚ) (h1 : t ≤ 2 ^ 32 - 1) :
    f64ToU32 t = (⌊t⌋).toNat := by
  have h2 : ⌊t⌋ ≤ ⌊((2 : ℚ) ^ 32 - 1)⌋ := Int.floor_mono h1
  have h3 : ⌊((2 : ℚ) ^ 32 - 1)⌋ = 2 ^ 32 - 1 := by norm_num
  rw [h3] at h2
  unfold f64ToU32
  apply min_eq_right
  omega

/-- Claim C2: the default `process_point_data` discretizes every in-bounds
point position `p` of a batch to
`x = ⌊(p.x - min.x) / diag.x * w⌋`, `y = ⌊(1 - (p.y - min.y)/diag.y) * h⌋`
(inverting the y axis), `z = ⌊(p.z - min.z)/diag.z * 1024⌋`, all floors being
nonnegative so that the `u32` cast is exactly the floor, and forwards exactly
one discretized location per point, in batch order. -/
theorem process_point_data_floor_formula (batch : PointsBatch) (bbox : Aabb) (w h : ℕ)
    (hdx : 0 < bbox.diag.x) (hdy : 0 < bbox.diag.y) (hdz : 0 < bbox.diag.z)
    (hw : w < 2 ^ 32) (hh : h < 2 ^ 32)
    (hin : ∀ p ∈ batch.position,
      bbox.min.x ≤ p.x ∧ p.x ≤ bbox.max.x ∧ bbox.min.y ≤ p.y ∧ p.y ≤ bbox.max.y ∧
      bbox.min.z ≤ p.z ∧ p.z ≤ bbox.max.z) :
    discretizedLocations batch bbox (w, h) =
      batch.position.map (fun p =>
        ⟨(⌊(p.x - bbox.min.x) / bbox.diag.x * (w : ℚ)⌋).toNat,
         (⌊(1 - (p.y - bbox.min.y) / bbox.diag.y) * (h : ℚ)⌋).toNat,
         (⌊(p.z - bbox.min.z) / bbox.diag.z * 1024⌋).toNat⟩) ∧
    (discretizedLocations batch bbox (w, h)).length = batch.position.length ∧
    ∀ p ∈ batch.position,
      0 ≤ ⌊(p.x - bbox.min.x) / bbox.diag.x * (w : ℚ)⌋ ∧
      0 ≤ ⌊(1 - (p.y - bbox.min.y) / bbox.diag.y) * (h : ℚ)⌋ ∧
      0 ≤ ⌊(p.z - bbox.min.z) / bbox.diag.z * 1024⌋ := by
  have hwq : (w : ℚ) ≤ 2 ^ 32 - 1 := by
    have : ((w : ℚ)) + 1 ≤ ((2 : ℚ)) ^ 32 := by exact_mod_cast hw
    linarith
  have hhq : (h : ℚ) ≤ 2 ^ 32 - 1 := by
    have : ((h : ℚ)) + 1 ≤ ((2 : ℚ)) ^ 32 := by exact_mod_cast hh
    linarith
  have key : ∀ p ∈ batch.position,
      discretize bbox (w, h) p =
        (⟨(⌊(p.x - bbox.min.x) / bbox.diag.x * (w : ℚ)⌋).toNat,
          (⌊(1 - (p.y - bbox.min.y) / bbox.diag.y) * (h : ℚ)⌋).toNat,
          (⌊(p.z - bbox.min.z) / bbox.diag.z * 1024⌋).toNat⟩ : Point3 ℕ) := by
    intro p hp
    obtain ⟨h1, h2, h3, h4, h5, h6⟩ := hin p hp
    have hrx1 : (p.x - bbox.min.x) / bbox.diag.x ≤ 1 :=
      (div_le_one hdx).mpr (by simp [Aabb.diag]; linarith)
    have hty1 : (1 - (p.y - bbox.min.y) / bbox.diag.y) ≤ 1 := by
      have : 0 ≤ (p.y - bbox.min.y) / bbox.diag.y :=
        div_nonneg (by linarith) (le_of_lt hdy)
      linarith
    have hrz1 : (p.z - bbox.min.z) / bbox.diag.z ≤ 1 :=
      (div_le_one hdz).mpr (by simp [Aabb.diag]; linarith)
    have hbx : (p.x - bbox.min.x) / bbox.diag.x * (w : ℚ) ≤ 2 ^ 32 - 1 :=
      le_trans (mul_le_of_le_one_left (by positivity) hrx1) hwq
    have hby : (1 - (p.y - bbox.min.y) / bbox.diag.y) * (h : ℚ) ≤ 2 ^ 32 - 1 :=
      le_trans (mul_le_of_le_one_left (by positivity) hty1) hhq
    have hbz : (p.z - bbox.min.z) / bbox.diag.z * NUM_Z_BUCKETS ≤ 2 ^ 32 - 1 := by
      have : (p.z - bbox.min.z) / bbox.diag.z * NUM_Z_BUCKETS ≤ NUM_Z_BUCKETS := by
        have hnz : (0 : ℚ) ≤ NUM_Z_BUCKETS := by norm_num [NUM_Z_BUCKETS]
        exact mul_le_of_le_one_left hnz hrz1
      unfold NUM_Z_BUCKETS at this ⊢
      linarith
    unfold discretize
    rw [f64ToU32_eq_floor_toNat _ hbx, f64ToU32_eq_floor_toNat _ hby,
      f64ToU32_eq_floor_toNat _ hbz]
    rfl
  refine ⟨?_, ?_, ?_⟩
  · unfold discretizedLocations
    exact List.map_eq_map_iff.mpr key
  · simp [discretizedLocations]
  · intro p hp
    obtain ⟨h1, h2, h3, h4, h5, h6⟩ := hin p hp
    have hry0 : (p.y - bbox.min.y) / bbox.diag.y ≤ 1 :=
      (div_le_one hdy).mpr (by simp [Aabb.diag]; linarith)
    refine ⟨Int.le_floor.mpr ?_, Int.le_floor.mpr ?_, Int.le_floor.mpr ?_⟩
    · push_cast
      exact mul_nonneg (div_nonneg (by linarith) (le_of_lt hdx)) (by positivity)
    · push_cast
      exact mul_nonneg (by linarith) (by positivity)
    · push_cast
      exact mul_nonneg (div_nonneg (by linarith) (le_of_lt hdz)) (by norm_num)

theorem process_point_data_floor_formula_witness :
    (0 : ℚ) < (⟨⟨0, 0, 0⟩, ⟨1, 1, 1⟩⟩ : Aabb).diag.x ∧
    discretizedLocations ⟨[⟨1/2, 1/2, 1/2⟩], []⟩ ⟨⟨0, 0, 0⟩, ⟨1, 1, 1⟩⟩ (4, 4) =
      [⟨2, 2, 512⟩] := by
  refine ⟨by norm_num [Aabb.diag], ?_⟩
  have hmain := process_point_data_floor_formula ⟨[⟨1/2, 1/2, 1/2⟩], []⟩
    ⟨⟨0, 0, 0⟩, ⟨1, 1, 1⟩⟩ 4 4 (by norm_num [Aabb.diag]) (by norm_num [Aabb.diag])
    (by norm_num [Aabb.diag]) (by decide) (by decide)
    (by intro p hp
        simp only [List.mem_singleton] at hp
        subst hp
        norm_num)
  refine hmain.1.trans ?_
  simp only [List.map_cons, List.map_nil, Point3.mk.injEq]
  norm_num [Aabb.diag]
  decide

/-- Claim C6: for every point strictly inside the tile bounding box (and a
nonempty image), the discretized location `(x, y, z)` produced by
`process_point_data` satisfies `x < w`, `y < h` and `z < 1024` (the lower
bounds `0 ≤ x, y, z` hold by the `ℕ` representation of `u32`). -/
theorem discretized_location_in_range (bbox : Aabb) (p : Point3 ℚ) (w h : ℕ)
    (hw : 0 < w) (hh : 0 < h)
    (hx1 : bbox.min.x < p.x) (hx2 : p.x < bbox.max.x)
    (hy1 : bbox.min.y < p.y) (hy2 : p.y < bbox.max.y)
    (hz1 : bbox.min.z < p.z) (hz2 : p.z < bbox.max.z) :
    (discretize bbox (w, h) p).x < w ∧ (discretize bbox (w, h) p).y < h ∧
    (discretize bbox (w, h) p).z < 1024 := by
  have hdx : (0 : ℚ) < bbox.diag.x := by simp [Aabb.diag]; linarith
  have hdy : (0 : ℚ) < bbox.diag.y := by simp [Aabb.diag]; linarith
  have hdz : (0 : ℚ) < bbox.diag.z := by simp [Aabb.diag]; linarith
  have bound : ∀ (t : ℚ) (n : ℕ), 0 < n → t < (n : ℚ) → f64ToU32 t < n := by
    intro t n hn ht
    have h5 : ⌊t⌋ < (n : ℤ) := Int.floor_lt.mpr (by exact_mod_cast ht)
    exact lt_of_le_of_lt (min_le_right _ _) (by omega)
  refine ⟨?_, ?_, ?_⟩
  · apply bound _ _ hw
    have hrx : (p.x - bbox.min.x) / bbox.diag.x < 1 :=
      (div_lt_one hdx).mpr (by simp [Aabb.diag]; linarith)
    exact mul_lt_of_lt_one_left (by exact_mod_cast hw) hrx
  · apply bound _ _ hh
    have hry : 0 < (p.y - bbox.min.y) / bbox.diag.y :=
      div_pos (by linarith) hdy
    have : 1 - (p.y - bbox.min.y) / bbox.diag.y < 1 := by linarith
    exact mul_lt_of_lt_one_left (by exact_mod_cast hh) this
  · have hrz : (p.z - bbox.min.z) / bbox.diag.z < 1 :=
      (div_lt_one hdz).mpr (by simp [Aabb.diag]; linarith)
    have hlt : (p.z - bbox.min.z) / bbox.diag.z * NUM_Z_BUCKETS < ((1024 : ℕ) : ℚ) := by
      have hb : (p.z - bbox.min.z) / bbox.diag.z * NUM_Z_BUCKETS < NUM_Z_BUCKETS :=
        mul_lt_of_lt_one_left (by norm_num [NUM_Z_BUCKETS]) hrz
      unfold NUM_Z_BUCKETS at hb ⊢
      push_cast
      linarith
    exact bound _ _ (by norm_num) hlt

theorem discretized_location_in_range_witness :
    ((⟨⟨0, 0, 0⟩, ⟨1, 1, 1⟩⟩ : Aabb).min.x < (1 : ℚ) / 2) ∧
    (discretize ⟨⟨0, 0, 0⟩, ⟨1, 1, 1⟩⟩ (4, 4) ⟨1/2, 1/2, 1/2⟩).x < 4 ∧
    (discretize ⟨⟨0, 0, 0⟩, ⟨1, 1, 1⟩⟩ (4, 4) ⟨1/2, 1/2, 1/2⟩).y < 4 ∧
    (discretize ⟨⟨0, 0, 0⟩, ⟨1, 1, 1⟩⟩ (4, 4) ⟨1/2, 1/2, 1/2⟩).z < 1024 := by
  refine ⟨by norm_num, ?_⟩
  exact discretized_location_in_range ⟨⟨0, 0, 0⟩, ⟨1, 1, 1⟩⟩ ⟨1/2, 1/2, 1/2⟩ 4 4
    (by decide) (by decide) (by norm_num) (by norm_num) (by norm_num) (by norm_num)
    (by norm_num) (by norm_num)

/-- Claim C5 (amended): for the binned strategies, with binning
`some (attr, size)` the bin key of each point is `value / size` truncated
toward zero (with saturating `i64` cast), for every 1-d scalar attribute
type; truncation agrees with `⌊value / size⌋` whenever the quotient is
nonnegative (and in particular differs from it on negative non-integral
quotients); with binning `none` every point of every batch gets bin key 0. -/
theorem bins_trunc_toward_zero (nm : String) (size : ℚ) (batch : PointsBatch)
    (v : List ℚ) (vu : List ℕ) (vi : List ℤ) :
    binsOf none batch = some (List.replicate batch.position.length 0) ∧
    (lookupAttr batch.attributes nm = some (AttributeData.F32 v) →
      binsOf (some (nm, size)) batch = some (v.map (fun e => f64ToI64 (e / size)))) ∧
    (lookupAttr batch.attributes nm = some (AttributeData.F64 v) →
      binsOf (some (nm, size)) batch = some (v.map (fun e => f64ToI64 (e / size)))) ∧
    (lookupAttr batch.attributes nm = some (AttributeData.U8 vu) →
      binsOf (some (nm, size)) batch = some (vu.map (fun e => f64ToI64 ((e : ℚ) / size)))) ∧
    (lookupAttr batch.attributes nm = some (AttributeData.I64 vi) →
      binsOf (some (nm, size)) batch = some (vi.map (fun e => f64ToI64 ((e : ℚ) / size)))) ∧
    (∀ q : ℚ, 0 ≤ q → q ≤ 2 ^ 63 - 1 → f64ToI64 q = ⌊q⌋) := by
  refine ⟨rfl, ?_, ?_, ?_, ?_, ?_⟩
  · intro hl
    simp [binsOf, hl]
  · intro hl
    simp [binsOf, hl]
  · intro hl
    simp [binsOf, hl]
  · intro hl
    simp [binsOf, hl]
  · intro q h0 h1
    have h2 : (0 : ℤ) ≤ ⌊q⌋ := Int.le_floor.mpr (by exact_mod_cast h0)
    have h3 : ⌊q⌋ ≤ ⌊((2 : ℚ) ^ 63 - 1)⌋ := Int.floor_mono h1
    have h4 : ⌊((2 : ℚ) ^ 63 - 1)⌋ = 2 ^ 63 - 1 := by norm_num
    rw [h4] at h3
    unfold f64ToI64 ratTruncTowardZero
    rw [if_pos h0, min_eq_right h3, max_eq_right (le_trans (by norm_num) h2)]

theorem bins_trunc_toward_zero_witness :
    lookupAttr [(("a"), AttributeData.F64 [3])] ("a") = some (AttributeData.F64 [3]) ∧
    binsOf (some (("a"), 2)) ⟨[⟨0, 0, 0⟩], [(("a"), AttributeData.F64 [3])]⟩ =
      some [1] := by
  have hl : lookupAttr [(("a"), AttributeData.F64 [3])] ("a") =
      some (AttributeData.F64 [3]) := by simp [lookupAttr]
  refine ⟨hl, ?_⟩
  have hmain := (bins_trunc_toward_zero ("a") 2
    ⟨[⟨0, 0, 0⟩], [(("a"), AttributeData.F64 [3])]⟩ [3] [] []).2.2.1 hl
  refine hmain.trans ?_
  norm_num [f64ToI64, ratTruncTowardZero]

/-- Claim C5, counterexample to the claim as stated: for the attribute value
`-1` and bin size `2` the code computes bin key `0` (truncation toward zero),
not `⌊-1/2⌋ = -1` as the floor formula of the claim would require. -/
theorem bins_floor_counterexample :
    binsOf (some (("a"), 2)) ⟨[⟨0, 0, 0⟩], [(("a"), AttributeData.F64 [-1])]⟩ =
      some [0] ∧
    (⌊(-1 : ℚ) / 2⌋ : ℤ) = -1 ∧
    binsOf (some (("a"), 2)) ⟨[⟨0, 0, 0⟩], [(("a"), AttributeData.F64 [-1])]⟩ ≠
      some [⌊(-1 : ℚ) / 2⌋] := by
  have h1 : binsOf (some (("a"), 2))
      ⟨[⟨0, 0, 0⟩], [(("a"), AttributeData.F64 [-1])]⟩ = some [0] := by
    have hc : ⌈(-1 : ℚ) / 2⌉ = 0 := by norm_num
    simp [binsOf, lookupAttr, f64ToI64, ratTruncTowardZero]
    rw [if_neg (by norm_num : ¬ (0 : ℚ) ≤ -1 / 2), hc]
    decide
  have h2 : (⌊(-1 : ℚ) / 2⌋ : ℤ) = -1 := by norm_num
  refine ⟨h1, h2, ?_⟩
  rw [h1, h2]
  simp

theorem findLevelsAux_spec (diagX diagY : ℚ) :
    ∀ (fuel : ℕ) (cur : ℚ), 0 < cur →
      diagX ≤ cur * 2 ^ fuel → diagY ≤ cur * 2 ^ fuel →
      (findLevelsAux diagX diagY fuel cur).2 =
        cur * 2 ^ (findLevelsAux diagX diagY fuel cur).1 ∧
      diagX ≤ (findLevelsAux diagX diagY fuel cur).2 ∧
      diagY ≤ (findLevelsAux diagX diagY fuel cur).2 ∧
      ∀ j : ℕ, diagX ≤ cur * 2 ^ j → diagY ≤ cur * 2 ^ j →
        (findLevelsAux diagX diagY fuel cur).1 ≤ j := by
  intro fuel
  induction fuel with
  | zero =>
    intro cur hc hcx hcy
    rw [pow_zero, mul_one] at hcx hcy
    unfold findLevelsAux
    exact ⟨by rw [pow_zero, mul_one], hcx, hcy, fun j _ _ => Nat.zero_le j⟩
  | succ n ih =>
    intro cur hc hcx hcy
    have hps : cur * 2 ^ (n + 1) = 2 * cur * 2 ^ n := by ring
    rw [hps] at hcx hcy
    by_cases hcond : cur < diagX ∨ cur < diagY
    · have h2c : 0 < 2 * cur := by linarith
      obtain ⟨e1, e2, e3, e4⟩ := ih (2 * cur) h2c hcx hcy
      have haux : findLevelsAux diagX diagY (n + 1) cur =
          ((findLevelsAux diagX diagY n (2 * cur)).1 + 1,
           (findLevelsAux diagX diagY n (2 * cur)).2) := by
        simp only [findLevelsAux]
        rw [if_pos hcond]
      rw [haux]
      refine ⟨?_, e2, e3, ?_⟩
      · rw [e1]
        ring
      · intro j hjx hjy
        match j with
        | 0 =>
          rw [pow_zero, mul_one] at hjx hjy
          rcases hcond with hcond | hcond
          · linarith
          · linarith
        | j + 1 =>
          have hpj : cur * 2 ^ (j + 1) = 2 * cur * 2 ^ j := by ring
          rw [hpj] at hjx hjy
          have := e4 j hjx hjy
          omega
    · have haux : findLevelsAux diagX diagY (n + 1) cur = (0, cur) := by
        simp only [findLevelsAux]
        rw [if_neg hcond]
      push_neg at hcond
      rw [haux]
      exact ⟨by rw [pow_zero, mul_one], hcond.1, hcond.2, fun j _ _ => Nat.zero_le j⟩

/-- Claim C7: for every bounding box with positive x/y diagonal and positive
`tile_size_px` and `pixel_size_m`, `find_quadtree_bounding_rect_and_levels`
returns a square rect anchored at `(bbox.min.x, bbox.min.y)` whose side is
`tile_m * 2 ^ levels` with `tile_m = tile_size_px * pixel_size_m`, this side
covers both diagonal components, and it is the smallest value of the form
`tile_m * 2 ^ k` doing so. -/
theorem quadtree_rect_smallest_cover (bbox : Aabb) (tileSizePx : ℕ) (pixelSizeM : ℚ)
    (hpx : 0 < tileSizePx) (hm : 0 < pixelSizeM)
    (hdx : 0 < bbox.diag.x) (hdy : 0 < bbox.diag.y) :
    (find_quadtree_bounding_rect_and_levels bbox tileSizePx pixelSizeM).1.x =
      bbox.min.x ∧
    (find_quadtree_bounding_rect_and_levels bbox tileSizePx pixelSizeM).1.y =
      bbox.min.y ∧
    (find_quadtree_bounding_rect_and_levels bbox tileSizePx pixelSizeM).1.size =
      (tileSizePx : ℚ) * pixelSizeM *
        2 ^ (find_quadtree_bounding_rect_and_levels bbox tileSizePx pixelSizeM).2 ∧
    bbox.diag.x ≤ (find_quadtree_bounding_rect_and_levels bbox tileSizePx pixelSizeM).1.size ∧
    bbox.diag.y ≤ (find_quadtree_bounding_rect_and_levels bbox tileSizePx pixelSizeM).1.size ∧
    ∀ k : ℕ, bbox.diag.x ≤ (tileSizePx : ℚ) * pixelSizeM * 2 ^ k →
      bbox.diag.y ≤ (tileSizePx : ℚ) * pixelSizeM * 2 ^ k →
      (find_quadtree_bounding_rect_and_levels bbox tileSizePx pixelSizeM).1.size ≤
        (tileSizePx : ℚ) * pixelSizeM * 2 ^ k := by
  have ht : (0 : ℚ) < (tileSizePx : ℚ) * pixelSizeM := by
    have : (0 : ℚ) < (tileSizePx : ℚ) := by exact_mod_cast hpx
    positivity
  set t : ℚ := (tileSizePx : ℚ) * pixelSizeM with hto
  set d : ℚ := max bbox.diag.x bbox.diag.y with hdo
  set c : ℕ := (⌈d / t⌉).toNat with hco
  have hcover : d ≤ t * 2 ^ (c + 1) := by
    have h1 : d / t ≤ ((⌈d / t⌉ : ℤ) : ℚ) := Int.le_ceil _
    have h2 : ((⌈d / t⌉ : ℤ) : ℚ) ≤ (c : ℚ) := by
      exact_mod_cast Int.self_le_toNat _
    have h3 : (c : ℚ) ≤ 2 ^ (c + 1) := by
      have hn : c < 2 ^ (c + 1) :=
        lt_of_lt_of_le (Nat.lt_two_pow c) (Nat.pow_le_pow_right (by norm_num) (by omega))
      exact_mod_cast le_of_lt hn
    have h4 : d / t ≤ 2 ^ (c + 1) := le_trans (le_trans h1 h2) h3
    calc d = d / t * t := by field_simp
    _ ≤ 2 ^ (c + 1) * t := mul_le_mul_of_nonneg_right h4 (le_of_lt ht)
    _ = t * 2 ^ (c + 1) := by ring
  have hfx : bbox.diag.x ≤ t * 2 ^ levelFuel bbox.diag.x bbox.diag.y t := by
    unfold levelFuel
    exact le_trans (le_max_left _ _) hcover
  have hfy : bbox.diag.y ≤ t * 2 ^ levelFuel bbox.diag.x bbox.diag.y t := by
    unfold levelFuel
    exact le_trans (le_max_right _ _) hcover
  obtain ⟨e1, e2, e3, e4⟩ :=
    findLevelsAux_spec bbox.diag.x bbox.diag.y (levelFuel bbox.diag.x bbox.diag.y t) t
      ht hfx hfy
  have hres : find_quadtree_bounding_rect_and_levels bbox tileSizePx pixelSizeM =
      (⟨bbox.min.x, bbox.min.y,
        (findLevelsAux bbox.diag.x bbox.diag.y (levelFuel bbox.diag.x bbox.diag.y t) t).2⟩,
       (findLevelsAux bbox.diag.x bbox.diag.y (levelFuel bbox.diag.x bbox.diag.y t) t).1) := by
    rfl
  rw [hres]
  refine ⟨rfl, rfl, e1, e2, e3, ?_⟩
  intro k hkx hky
  have hjk := e4 k hkx hky
  rw [e1]
  exact mul_le_mul_of_nonneg_left (pow_le_pow_right (by norm_num) hjk) (le_of_lt ht)

theorem quadtree_rect_smallest_cover_witness :
    (0 : ℚ) < (⟨⟨0, 0, 0⟩, ⟨3, 2, 5⟩⟩ : Aabb).diag.x ∧
    (⟨⟨0, 0, 0⟩, ⟨3, 2, 5⟩⟩ : Aabb).diag.x ≤
      (find_quadtree_bounding_rect_and_levels ⟨⟨0, 0, 0⟩, ⟨3, 2, 5⟩⟩ 1 1).1.size ∧
    (⟨⟨0, 0, 0⟩, ⟨3, 2, 5⟩⟩ : Aabb).diag.y ≤
      (find_quadtree_bounding_rect_and_levels ⟨⟨0, 0, 0⟩, ⟨3, 2, 5⟩⟩ 1 1).1.size ∧
    (find_quadtree_bounding_rect_and_levels ⟨⟨0, 0, 0⟩, ⟨3, 2, 5⟩⟩ 1 1).1.size =
      (1 : ℚ) * 1 * 2 ^ (find_quadtree_bounding_rect_and_levels ⟨⟨0, 0, 0⟩, ⟨3, 2, 5⟩⟩ 1 1).2 := by
  have hmain := quadtree_rect_smallest_cover ⟨⟨0, 0, 0⟩, ⟨3, 2, 5⟩⟩ 1 1
    (by decide) (by norm_num) (by norm_num [Aabb.diag]) (by norm_num [Aabb.diag])
  refine ⟨by norm_num [Aabb.diag], hmain.2.2.2.1, hmain.2.2.2.2.1, ?_⟩
  have := hmain.2.2.1
  simpa using this

theorem intensityLoop_first_negative :
    ∀ (i : ℕ) (ints : List ℚ) (locs : List (Point3 ℕ)) (bs : List ℤ)
      (m : IntensityPerColumnData) (v : ℚ),
      ints.get? i = some v → v < 0 →
      (∀ j, j < i → ∀ w2, ints.get? j = some w2 → 0 ≤ w2) →
      i ≤ locs.length → i ≤ bs.length →
      intensityLoop ints locs bs m =
        some (intensityAccum m (zip3 (ints.take i) (locs.take i) (bs.take i))) := by
  intro i
  induction i with
  | zero =>
    intro ints locs bs m v hv hvneg _ _ _
    cases ints with
    | nil => simp [List.get?] at hv
    | cons w tl =>
      simp only [List.get?, Option.some.injEq] at hv
      subst hv
      simp only [intensityLoop]
      rw [if_pos hvneg]
      simp [List.take, zip3, intensityAccum]
  | succ n ih =>
    intro ints locs bs m v hv hvneg hfirst hlocs hbs
    cases ints with
    | nil => simp [List.get?] at hv
    | cons w tl =>
      have hw : 0 ≤ w := hfirst 0 (Nat.succ_pos n) w rfl
      cases locs with
      | nil => simp at hlocs
      | cons l ls =>
        cases bs with
        | nil => simp at hbs
        | cons b brest =>
          have hstep : intensityLoop (w :: tl) (l :: ls) (b :: brest) m =
              intensityLoop tl ls brest (intensityUpdate m l b w) := by
            simp only [intensityLoop]
            rw [if_neg (not_lt.mpr hw)]
          rw [hstep]
          have htl : tl.get? n = some v := hv
          have hfirst2 : ∀ j, j < n → ∀ w2, tl.get? j = some w2 → 0 ≤ w2 := by
            intro j hj w2 hw2
            exact hfirst (j + 1) (by omega) w2 hw2
          have hrec := ih tl ls brest (intensityUpdate m l b w) v htl hvneg hfirst2
            (by simp only [List.length_cons] at hlocs; omega)
            (by simp only [List.length_cons] at hbs; omega)
          rw [hrec]
          rfl

/-- Claim C3: for the intensity strategy, if the `i`-th intensity value of a
batch is the first negative one, `process_discretized` returns immediately at
index `i`: the resulting accumulator is exactly the one obtained from the
first `i` points of the batch (so indices `≥ i` contribute nothing and
indices `< i` stay accumulated), and subsequent batches are processed
normally from that state. -/
theorem intensity_negative_short_circuit
    (binning : Option (String × ℚ)) (batch : PointsBatch) (locs : List (Point3 ℕ))
    (m : IntensityPerColumnData) (bs : List ℤ) (intensityVec : List ℚ)
    (i : ℕ) (v : ℚ)
    (hbins : binsOf binning batch = some bs)
    (hattr : lookupAttr batch.attributes ("intensity") =
      some (AttributeData.F32 intensityVec))
    (hv : intensityVec.get? i = some v) (hvneg : v < 0)
    (hfirst : ∀ j, j < i → ∀ w2, intensityVec.get? j = some w2 → 0 ≤ w2)
    (hlocs : i ≤ locs.length) (hbs : i ≤ bs.length) :
    intensityProcessDiscretized binning batch locs m =
      some (intensityAccum m
        (zip3 (intensityVec.take i) (locs.take i) (bs.take i))) ∧
    ∀ rest, intensityProcessBatches binning m ((batch, locs) :: rest) =
      intensityProcessBatches binning
        (intensityAccum m (zip3 (intensityVec.take i) (locs.take i) (bs.take i)))
        rest := by
  have hloop := intensityLoop_first_negative i intensityVec locs bs m v hv hvneg
    hfirst hlocs hbs
  have hred : intensityProcessDiscretized binning batch locs m =
      intensityLoop intensityVec locs bs m := by
    simp [intensityProcessDiscretized, hbins, hattr]
  have hproc := hred.trans hloop
  refine ⟨hproc, ?_⟩
  intro rest
  simp [intensityProcessBatches, hproc]

theorem intensity_negative_short_circuit_witness :
    (([2, -1, 5] : List ℚ).get? 1 = some (-1)) ∧ ((-1 : ℚ) < 0) ∧
    intensityProcessDiscretized none
      ⟨[⟨0, 0, 0⟩, ⟨0, 0, 0⟩, ⟨0, 0, 0⟩], [(("intensity"), AttributeData.F32 [2, -1, 5])]⟩
      [⟨1, 1, 1⟩, ⟨2, 2, 2⟩, ⟨3, 3, 3⟩] intensityEmpty =
      some (intensityAccum intensityEmpty
        (zip3 (([2, -1, 5] : List ℚ).take 1)
          (([⟨1, 1, 1⟩, ⟨2, 2, 2⟩, ⟨3, 3, 3⟩] : List (Point3 ℕ)).take 1)
          (([0, 0, 0] : List ℤ).take 1))) := by
  have hattr : lookupAttr [(("intensity"), AttributeData.F32 [2, -1, 5])] ("intensity") =
      some (AttributeData.F32 [2, -1, 5]) := by simp [lookupAttr]
  have hfirst : ∀ j, j < 1 → ∀ w2, ([2, -1, 5] : List ℚ).get? j = some w2 → 0 ≤ w2 := by
    intro j hj w2 hw2
    have hj0 : j = 0 := by omega
    subst hj0
    simp only [List.get?] at hw2
    rw [← Option.some.injEq] at hw2
    cases hw2
    norm_num
  have hmain := intensity_negative_short_circuit none
    ⟨[⟨0, 0, 0⟩, ⟨0, 0, 0⟩, ⟨0, 0, 0⟩], [(("intensity"), AttributeData.F32 [2, -1, 5])]⟩
    [⟨1, 1, 1⟩, ⟨2, 2, 2⟩, ⟨3, 3, 3⟩] intensityEmpty [0, 0, 0] [2, -1, 5] 1 (-1)
    rfl hattr rfl (by norm_num) hfirst (by simp) (by simp)
  exact ⟨rfl, by norm_num, hmain.1⟩

/-- Claim C10: if a batch carries the required attribute under the expected
name but with the wrong payload type (`intensity` present but not `F32`,
`color` present but not `U8Vec3`), the intensity and color strategies
silently ignore the whole batch: `process_discretized` succeeds (no panic)
and leaves the accumulator unchanged. -/
theorem wrong_type_attribute_ignored
    (binning : Option (String × ℚ)) (batch1 batch2 : PointsBatch)
    (locs1 locs2 : List (Point3 ℕ)) (m1 : IntensityPerColumnData)
    (m2 : ColorPerColumnData) (bs1 bs2 : List ℤ) (d1 d2 : AttributeData)
    (hbins1 : binsOf binning batch1 = some bs1)
    (hattr1 : lookupAttr batch1.attributes ("intensity") = some d1)
    (hno1 : ∀ v, d1 ≠ AttributeData.F32 v)
    (hbins2 : binsOf binning batch2 = some bs2)
    (hattr2 : lookupAttr batch2.attributes ("color") = some d2)
    (hno2 : ∀ v, d2 ≠ AttributeData.U8Vec3 v) :
    intensityProcessDiscretized binning batch1 locs1 m1 = some m1 ∧
    colorProcessDiscretized binning batch2 locs2 m2 = some m2 := by
  constructor
  · cases d1 with
    | F32 v => exact absurd rfl (hno1 v)
    | U8 v => simp [intensityProcessDiscretized, hbins1, hattr1]
    | I64 v => simp [intensityProcessDiscretized, hbins1, hattr1]
    | F64 v => simp [intensityProcessDiscretized, hbins1, hattr1]
    | U8Vec3 v => simp [intensityProcessDiscretized, hbins1, hattr1]
  · cases d2 with
    | U8Vec3 v => exact absurd rfl (hno2 v)
    | U8 v => simp [colorProcessDiscretized, hbins2, hattr2]
    | I64 v => simp [colorProcessDiscretized, hbins2, hattr2]
    | F32 v => simp [colorProcessDiscretized, hbins2, hattr2]
    | F64 v => simp [colorProcessDiscretized, hbins2, hattr2]

theorem wrong_type_attribute_ignored_witness :
    lookupAttr [(("intensity"), AttributeData.I64 [7])] ("intensity") =
      some (AttributeData.I64 [7]) ∧
    intensityProcessDiscretized none ⟨[], [(("intensity"), AttributeData.I64 [7])]⟩ []
      intensityEmpty = some intensityEmpty ∧
    colorProcessDiscretized none ⟨[], [(("color"), AttributeData.F32 [1])]⟩ []
      colorEmpty = some colorEmpty := by
  have h1 : lookupAttr [(("intensity"), AttributeData.I64 [7])] ("intensity") =
      some (AttributeData.I64 [7]) := by simp [lookupAttr]
  have h2 : lookupAttr [(("color"), AttributeData.F32 [1])] ("color") =
      some (AttributeData.F32 [1]) := by simp [lookupAttr]
  have hmain := wrong_type_attribute_ignored none
    ⟨[], [(("intensity"), AttributeData.I64 [7])]⟩
    ⟨[], [(("color"), AttributeData.F32 [1])]⟩ [] [] intensityEmpty colorEmpty
    [] [] (AttributeData.I64 [7]) (AttributeData.F32 [1])
    rfl h1 (fun v h => by cases h) rfl h2 (fun v h => by cases h)
  exact ⟨h1, hmain.1, hmain.2⟩

/-- Claim C4 (amended): in the background-fill pass every pixel whose alpha
is below 128 is replaced entirely by the configured background color exactly
as configured (alpha included, so the result is opaque only when the
configured background is), and every pixel whose alpha is at least 128 is
kept bit-identical; image dimensions are unchanged. -/
theorem assign_background_color_threshold (bg : Color ℕ) (img : Image) (x y : ℕ) :
    ((img.pix x y).alpha < 128 →
      (assignBackgroundColorImage bg img).pix x y = bg) ∧
    (128 ≤ (img.pix x y).alpha →
      (assignBackgroundColorImage bg img).pix x y = img.pix x y) ∧
    (assignBackgroundColorImage bg img).width = img.width ∧
    (assignBackgroundColorImage bg img).height = img.height := by
  refine ⟨?_, ?_, rfl, rfl⟩
  · intro hlt
    simp [assignBackgroundColorImage, mapColors, assignBackgroundColorPixel, hlt]
  · intro hge
    simp [assignBackgroundColorImage, mapColors, assignBackgroundColorPixel,
      Nat.not_lt.mpr hge]

theorem assign_background_color_threshold_witness :
    ((⟨10, 20, 30, 100⟩ : Color ℕ).alpha < 128) ∧
    (assignBackgroundColorImage WHITE_U8
      ⟨1, 1, fun _ _ => ⟨10, 20, 30, 100⟩⟩).pix 0 0 = WHITE_U8 := by
  refine ⟨by decide, ?_⟩
  exact (assign_background_color_threshold WHITE_U8
    ⟨1, 1, fun _ _ => ⟨10, 20, 30, 100⟩⟩ 0 0).1 (by decide)

/-- Claim C4, counterexample to the claim as stated: with the configured
background `transparent` (an allowed CLI choice mapping to `(0,0,0,0)`), a
pixel with alpha below 128 is replaced by `(0,0,0,0)` verbatim and not by an
opaque version of the background: the replaced pixel has alpha 0, not 255. -/
theorem assign_background_color_opaque_counterexample :
    ((⟨10, 20, 30, 100⟩ : Color ℕ).alpha < 128) ∧
    (assignBackgroundColorImage TileBackgroundColorArgument.transparent.to_color
      ⟨1, 1, fun _ _ => ⟨10, 20, 30, 100⟩⟩).pix 0 0 = ⟨0, 0, 0, 0⟩ ∧
    (assignBackgroundColorImage TileBackgroundColorArgument.transparent.to_color
      ⟨1, 1, fun _ _ => ⟨10, 20, 30, 100⟩⟩).pix 0 0 ≠
      ⟨TRANSPARENT_U8.red, TRANSPARENT_U8.green, TRANSPARENT_U8.blue, 255⟩ := by
  refine ⟨by decide, by decide, by decide⟩

theorem pasteChild_width (img : Image) (c : Option Image) (xo yo : ℕ) :
    (pasteChild img c xo yo).width = img.width := by
  cases c <;> rfl

theorem pasteChild_height (img : Image) (c : Option Image) (xo yo : ℕ) :
    (pasteChild img c xo yo).height = img.height := by
  cases c <;> rfl

theorem firstChildWidth_eq (children : Fin 4 → Option Image) (n : ℕ) (j : Fin 4)
    (cj : Image) (hj : children j = some cj)
    (hsz : ∀ i : Fin 4, ∀ c : Image, children i = some c → c.width = n ∧ c.height = n) :
    firstChildWidth children = some n := by
  unfold firstChildWidth
  cases h0 : children 0 with
  | some c => simp [(hsz 0 c h0).1]
  | none =>
    cases h1 : children 1 with
    | some c => simp [(hsz 1 c h1).1]
    | none =>
      cases h2 : children 2 with
      | some c => simp [(hsz 2 c h2).1]
      | none =>
        cases h3 : children 3 with
        | some c => simp [(hsz 3 c h3).1]
        | none =>
          exfalso
          fin_cases j <;> simp_all

theorem childSizesOk_true (children : Fin 4 → Option Image) (n : ℕ)
    (hsz : ∀ i : Fin 4, ∀ c : Image, children i = some c → c.width = n ∧ c.height = n) :
    childSizesOk children n = true := by
  unfold childSizesOk
  rw [List.all_eq_true]
  intro i _
  cases hi : children i with
  | none => simp
  | some c => simp [(hsz i c hi).1, (hsz i c hi).2]


theorem pasteChild_pix_out (img : Image) (c : Option Image) (xo yo x y : ℕ)
    (h : ∀ ci : Image, c = some ci →
      ¬(xo ≤ x ∧ x < xo + ci.width ∧ yo ≤ y ∧ y < yo + ci.height)) :
    (pasteChild img c xo yo).pix x y = img.pix x y := by
  cases c with
  | none => rfl
  | some ci =>
    simp only [pasteChild, copyFrom]
    rw [if_neg (h ci rfl)]

theorem pasteChild_pix_in (img : Image) (ci : Image) (xo yo x y : ℕ)
    (h : xo ≤ x ∧ x < xo + ci.width ∧ yo ≤ y ∧ y < yo + ci.height) :
    (pasteChild img (some ci) xo yo).pix x y = ci.pix (x - xo) (y - yo) := by
  simp only [pasteChild, copyFrom]
  rw [if_pos h]

theorem buildParentComposite_pix (children : Fin 4 → Option Image) (bg : Color ℕ)
    (n x y : ℕ) (hx : x < n) (hy : y < n)
    (hsz : ∀ i : Fin 4, ∀ c : Image, children i = some c → c.width = n ∧ c.height = n) :
    (buildParentComposite children bg n).pix x y = childPixOr (children 1) bg x y ∧
    (buildParentComposite children bg n).pix x (y + n) = childPixOr (children 0) bg x y ∧
    (buildParentComposite children bg n).pix (x + n) y = childPixOr (children 3) bg x y ∧
    (buildParentComposite children bg n).pix (x + n) (y + n) =
      childPixOr (children 2) bg x y := by
  unfold buildParentComposite
  refine ⟨?_, ?_, ?_, ?_⟩
  · rw [pasteChild_pix_out _ _ _ _ _ _
      (fun ci hci => by obtain ⟨hw, hh2⟩ := hsz 2 ci hci; omega)]
    rw [pasteChild_pix_out _ _ _ _ _ _
      (fun ci hci => by obtain ⟨hw, hh2⟩ := hsz 3 ci hci; omega)]
    rw [pasteChild_pix_out _ _ _ _ _ _
      (fun ci hci => by obtain ⟨hw, hh2⟩ := hsz 0 ci hci; omega)]
    cases h1 : children 1 with
    | none => simp [pasteChild, imageFromPixel, childPixOr]
    | some c1 =>
      obtain ⟨hw, hh2⟩ := hsz 1 c1 h1
      rw [pasteChild_pix_in _ _ _ _ _ _ ⟨by omega, by omega, by omega, by omega⟩]
      simp [childPixOr]
  · rw [pasteChild_pix_out _ _ _ _ _ _
      (fun ci hci => by obtain ⟨hw, hh2⟩ := hsz 2 ci hci; omega)]
    rw [pasteChild_pix_out _ _ _ _ _ _
      (fun ci hci => by obtain ⟨hw, hh2⟩ := hsz 3 ci hci; omega)]
    cases h0 : children 0 with
    | none =>
      rw [pasteChild_pix_out _ none _ _ _ _ (fun ci hci => by cases hci)]
      rw [pasteChild_pix_out _ _ _ _ _ _
        (fun ci hci => by obtain ⟨hw, hh2⟩ := hsz 1 ci hci; omega)]
      simp [imageFromPixel, childPixOr]
    | some c0 =>
      obtain ⟨hw, hh2⟩ := hsz 0 c0 h0
      rw [pasteChild_pix_in _ _ _ _ _ _ ⟨by omega, by omega, by omega, by omega⟩]
      simp [childPixOr, Nat.add_sub_cancel]
  · rw [pasteChild_pix_out _ _ _ _ _ _
      (fun ci hci => by obtain ⟨hw, hh2⟩ := hsz 2 ci hci; omega)]
    cases h3 : children 3 with
    | none =>
      rw [pasteChild_pix_out _ none _ _ _ _ (fun ci hci => by cases hci)]
      rw [pasteChild_pix_out _ _ _ _ _ _
        (fun ci hci => by obtain ⟨hw, hh2⟩ := hsz 0 ci hci; omega)]
      rw [pasteChild_pix_out _ _ _ _ _ _
        (fun ci hci => by obtain ⟨hw, hh2⟩ := hsz 1 ci hci; omega)]
      simp [imageFromPixel, childPixOr]
    | some c3 =>
      obtain ⟨hw, hh2⟩ := hsz 3 c3 h3
      rw [pasteChild_pix_in _ _ _ _ _ _ ⟨by omega, by omega, by omega, by omega⟩]
      simp [childPixOr, Nat.add_sub_cancel]
  · cases h2 : children 2 with
    | none =>
      rw [pasteChild_pix_out _ none _ _ _ _ (fun ci hci => by cases hci)]
      rw [pasteChild_pix_out _ _ _ _ _ _
        (fun ci hci => by obtain ⟨hw, hh2⟩ := hsz 3 ci hci; omega)]
      rw [pasteChild_pix_out _ _ _ _ _ _
        (fun ci hci => by obtain ⟨hw, hh2⟩ := hsz 0 ci hci; omega)]
      rw [pasteChild_pix_out _ _ _ _ _ _
        (fun ci hci => by obtain ⟨hw, hh2⟩ := hsz 1 ci hci; omega)]
      simp [imageFromPixel, childPixOr]
    | some c2 =>
      obtain ⟨hw, hh2⟩ := hsz 2 c2 h2
      rw [pasteChild_pix_in _ _ _ _ _ _ ⟨by omega, by omega, by omega, by omega⟩]
      simp [childPixOr, Nat.add_sub_cancel]

/-- Claim C8: given 4 child slots of which at least one is `some` and all
present children are square with the same side `n`, `build_parent` returns
the `2n × 2n` image filled with the tile background color in which child 1 is
pasted at offset `(0,0)`, child 0 at `(0,n)`, child 3 at `(n,0)` and child 2
at `(n,n)`; quadrants of absent children show the background color. -/
theorem build_parent_quadrants (children : Fin 4 → Option Image) (bg : Color ℕ)
    (n : ℕ) (j : Fin 4) (cj : Image) (hj : children j = some cj)
    (hsz : ∀ i : Fin 4, ∀ c : Image, children i = some c → c.width = n ∧ c.height = n) :
    build_parent children bg = some (buildParentComposite children bg n) ∧
    (buildParentComposite children bg n).width = 2 * n ∧
    (buildParentComposite children bg n).height = 2 * n ∧
    ∀ x y, x < n → y < n →
      (buildParentComposite children bg n).pix x y = childPixOr (children 1) bg x y ∧
      (buildParentComposite children bg n).pix x (y + n) =
        childPixOr (children 0) bg x y ∧
      (buildParentComposite children bg n).pix (x + n) y =
        childPixOr (children 3) bg x y ∧
      (buildParentComposite children bg n).pix (x + n) (y + n) =
        childPixOr (children 2) bg x y := by
  refine ⟨?_, ?_, ?_, ?_⟩
  · simp [build_parent, firstChildWidth_eq children n j cj hj hsz,
      childSizesOk_true children n hsz]
  · simp [buildParentComposite, pasteChild_width, imageFromPixel]
  · simp [buildParentComposite, pasteChild_height, imageFromPixel]
  · intro x y hx hy
    exact buildParentComposite_pix children bg n x y hx hy hsz

theorem build_parent_quadrants_witness :
    build_parent
        (fun i : Fin 4 =>
          if i = 1 then some (⟨1, 1, fun _ _ => ⟨9, 8, 7, 255⟩⟩ : Image) else none)
        ⟨0, 0, 0, 255⟩ =
      some (buildParentComposite
        (fun i : Fin 4 =>
          if i = 1 then some (⟨1, 1, fun _ _ => ⟨9, 8, 7, 255⟩⟩ : Image) else none)
        ⟨0, 0, 0, 255⟩ 1) ∧
    (buildParentComposite
        (fun i : Fin 4 =>
          if i = 1 then some (⟨1, 1, fun _ _ => ⟨9, 8, 7, 255⟩⟩ : Image) else none)
        ⟨0, 0, 0, 255⟩ 1).pix 0 0 = ⟨9, 8, 7, 255⟩ ∧
    (buildParentComposite
        (fun i : Fin 4 =>
          if i = 1 then some (⟨1, 1, fun _ _ => ⟨9, 8, 7, 255⟩⟩ : Image) else none)
        ⟨0, 0, 0, 255⟩ 1).pix 0 1 = ⟨0, 0, 0, 255⟩ := by
  have hj : (fun i : Fin 4 =>
      if i = 1 then some (⟨1, 1, fun _ _ => ⟨9, 8, 7, 255⟩⟩ : Image) else none) 1 =
      some ⟨1, 1, fun _ _ => ⟨9, 8, 7, 255⟩⟩ := by simp
  have hsz : ∀ i : Fin 4, ∀ c : Image,
      (fun i : Fin 4 =>
        if i = 1 then some (⟨1, 1, fun _ _ => ⟨9, 8, 7, 255⟩⟩ : Image) else none) i =
        some c → c.width = 1 ∧ c.height = 1 := by
    intro i c hc
    by_cases hi : i = 1
    · subst hi
      simp at hc
      subst hc
      exact ⟨rfl, rfl⟩
    · simp [hi] at hc
  have hmain := build_parent_quadrants
    (fun i : Fin 4 =>
      if i = 1 then some (⟨1, 1, fun _ _ => ⟨9, 8, 7, 255⟩⟩ : Image) else none)
    ⟨0, 0, 0, 255⟩ 1 1 ⟨1, 1, fun _ _ => ⟨9, 8, 7, 255⟩⟩ hj hsz
  have hp := hmain.2.2.2 0 0 (by decide) (by decide)
  refine ⟨hmain.1, ?_, ?_⟩
  · refine hp.1.trans ?_
    simp [childPixOr]
  · have h2 := hp.2.1
    simpa [childPixOr] using h2

theorem xrayProcessDiscretized_apply (ds : List (Point3 ℕ)) :
    ∀ (s : XRayZBuckets) (x y : ℕ),
      xrayProcessDiscretized s ds (x, y) =
        if zSet ds x y = ∅ then s (x, y)
        else some ((s (x, y)).getD ∅ ∪ zSet ds x y) := by
  induction ds with
  | nil =>
    intro s x y
    simp [xrayProcessDiscretized, zSet]
  | cons d tl ih =>
    intro s x y
    have hfold : xrayProcessDiscretized s (d :: tl) =
        xrayProcessDiscretized (xrayInsert s d) tl := rfl
    rw [hfold]
    by_cases hm : d.x = x ∧ d.y = y
    · have hz : zSet (d :: tl) x y = insert d.z (zSet tl x y) := by
        simp [zSet, List.filter_cons, hm.1, hm.2]
      have hs2 : xrayInsert s d (x, y) = some (insert d.z ((s (x, y)).getD ∅)) := by
        unfold xrayInsert
        rw [if_pos (by rw [Prod.mk.injEq]; exact ⟨hm.1.symm, hm.2.symm⟩)]
      rw [ih (xrayInsert s d) x y, hz]
      by_cases he : zSet tl x y = ∅
      · rw [if_pos he]
        rw [if_neg (by simp : insert d.z (zSet tl x y) ≠ ∅)]
        rw [hs2, he]
        rw [Finset.union_insert, Finset.union_empty]
      · rw [if_neg he]
        rw [if_neg (by simp : insert d.z (zSet tl x y) ≠ ∅)]
        rw [hs2]
        simp only [Option.getD_some]
        rw [Finset.insert_union, Finset.union_insert]
    · have hb : ¬(d.x == x && d.y == y) = true := by
        simp only [Bool.and_eq_true, beq_iff_eq]
        exact hm
      have hz : zSet (d :: tl) x y = zSet tl x y := by
        unfold zSet
        rw [List.filter_cons, if_neg hb]
      have hs2 : xrayInsert s d (x, y) = s (x, y) := by
        unfold xrayInsert
        rw [if_neg]
        intro hcontra
        rw [Prod.mk.injEq] at hcontra
        exact hm ⟨hcontra.1.symm, hcontra.2.symm⟩
      rw [ih (xrayInsert s d) x y, hz, hs2]

theorem xrayGet_process_char (ds : List (Point3 ℕ)) (x y : ℕ) :
    (zSet ds x y = ∅ →
      xrayGetPixelColor (xrayProcessDiscretized xrayEmpty ds) x y = none) ∧
    (zSet ds x y ≠ ∅ →
      xrayGetPixelColor (xrayProcessDiscretized xrayEmpty ds) x y =
        some ⟨xrayPixelValue (zSet ds x y).card, xrayPixelValue (zSet ds x y).card,
              xrayPixelValue (zSet ds x y).card, 255⟩) := by
  have happ := xrayProcessDiscretized_apply ds xrayEmpty x y
  constructor
  · intro he
    rw [if_pos he] at happ
    simp [xrayGetPixelColor, happ, xrayEmpty]
  · intro he
    rw [if_neg he] at happ
    simp [xrayGetPixelColor, happ, xrayEmpty]

theorem log_1024_eq : Real.log 1024 = 10 * Real.log 2 := by
  rw [show (1024 : ℝ) = 2 ^ 10 by norm_num, Real.log_pow]
  push_cast
  ring

theorem xrayPixelValue_le_255 (n : ℕ) : xrayPixelValue n ≤ 255 :=
  min_le_left _ _

theorem xrayPixelValue_one : xrayPixelValue 1 = 255 := by
  unfold xrayPixelValue f64ToU8R
  norm_num [Real.log_one]

theorem xrayPixelValue_two : xrayPixelValue 2 = 229 := by
  unfold xrayPixelValue f64ToU8R
  have hl2 : Real.log 2 ≠ 0 := ne_of_gt (Real.log_pos one_lt_two)
  have hval : (1 - Real.log ((2 : ℕ) : ℝ) / Real.log 1024) * 255 = 459 / 2 := by
    rw [log_1024_eq]
    push_cast
    field_simp
    ring
  rw [hval]
  norm_num
  decide

theorem log_three_bounds :
    11 * Real.log 2 < 7 * Real.log 3 ∧ 17 * Real.log 3 < 27 * Real.log 2 := by
  constructor
  · have h : Real.log ((2 : ℝ) ^ 11) < Real.log ((3 : ℝ) ^ 7) :=
      Real.log_lt_log (by positivity) (by norm_num)
    rw [Real.log_pow, Real.log_pow] at h
    push_cast at h
    linarith
  · have h : Real.log ((3 : ℝ) ^ 17) < Real.log ((2 : ℝ) ^ 27) :=
      Real.log_lt_log (by positivity) (by norm_num)
    rw [Real.log_pow, Real.log_pow] at h
    push_cast at h
    linarith

theorem xray_value_three_bounds :
    (429 / 2 : ℝ) < (1 - Real.log 3 / Real.log 1024) * 255 ∧
    (1 - Real.log 3 / Real.log 1024) * 255 < 215 := by
  obtain ⟨hb1, hb2⟩ := log_three_bounds
  have hl2 : 0 < Real.log 2 := Real.log_pos (by norm_num)
  have h10 : 0 < 10 * Real.log 2 := by linarith
  rw [log_1024_eq]
  constructor
  · have hx : Real.log 3 / (10 * Real.log 2) < 27 / 170 := by
      rw [div_lt_div_iff h10 (by norm_num)]
      linarith
    linarith
  · have hx : (11 : ℝ) / 70 < Real.log 3 / (10 * Real.log 2) := by
      rw [div_lt_div_iff (by norm_num) h10]
      linarith
    linarith

theorem xrayPixelValue_three : xrayPixelValue 3 = 214 := by
  unfold xrayPixelValue f64ToU8R
  have hcast : ((3 : ℕ) : ℝ) = 3 := by norm_num
  rw [hcast]
  obtain ⟨hlo, hhi⟩ := xray_value_three_bounds
  have hfl : ⌊(1 - Real.log 3 / Real.log 1024) * 255⌋ = 214 := by
    rw [Int.floor_eq_iff]
    constructor
    · push_cast
      linarith
    · push_cast
      linarith
  rw [hfl]
  decide

theorem xray_round_value_three :
    round ((1 - Real.log 3 / Real.log 1024) * 255) = 215 := by
  obtain ⟨hlo, hhi⟩ := xray_value_three_bounds
  rw [round_eq]
  rw [Int.floor_eq_iff]
  constructor
  · push_cast
    linarith
  · push_cast
    linarith

/-- Claim C1 (amended): for the x-ray strategy, a pixel `(x, y)` whose column
accumulated `n ≥ 1` distinct z-bucket indices yields
`some (v, v, v, 255)` with `v = ⌊(1 - ln n / ln 1024) * 255⌋` (the `as u8`
cast truncates; it does not round), and a pixel never touched by a point
yields `none`. -/
theorem xray_get_pixel_color_floor (ds : List (Point3 ℕ)) (x y : ℕ) :
    (xrayGetPixelColor (xrayProcessDiscretized xrayEmpty ds) x y = none ↔
      ∀ d ∈ ds, ¬(d.x = x ∧ d.y = y)) ∧
    (∀ n : ℕ, n = (zSet ds x y).card → 1 ≤ n →
      xrayGetPixelColor (xrayProcessDiscretized xrayEmpty ds) x y =
        some ⟨xrayPixelValue n, xrayPixelValue n, xrayPixelValue n, 255⟩ ∧
      xrayPixelValue n =
        (⌊(1 - Real.log (n : ℝ) / Real.log 1024) * 255⌋).toNat) := by
  obtain ⟨hnone, hsome⟩ := xrayGet_process_char ds x y
  have hchar : zSet ds x y = ∅ ↔ ∀ d ∈ ds, ¬(d.x = x ∧ d.y = y) := by
    simp [zSet, List.toFinset_eq_empty_iff, List.map_eq_nil, List.filter_eq_nil_iff]
  constructor
  · constructor
    · intro hn
      rw [← hchar]
      by_contra he
      rw [hsome he] at hn
      exact Option.noConfusion hn
    · intro hforall
      exact hnone (hchar.mpr hforall)
  · intro n hn h1n
    have he : zSet ds x y ≠ ∅ := by
      intro he0
      rw [he0] at hn
      simp at hn
      omega
    constructor
    · rw [hsome he, ← hn]
    · unfold xrayPixelValue f64ToU8R
      apply min_eq_right
      have hlog : 0 ≤ Real.log (n : ℝ) := Real.log_nonneg (by exact_mod_cast h1n)
      have hlogL : 0 < Real.log 1024 := Real.log_pos (by norm_num)
      have hratio : 0 ≤ Real.log (n : ℝ) / Real.log 1024 :=
        div_nonneg hlog (le_of_lt hlogL)
      have hval : (1 - Real.log (n : ℝ) / Real.log 1024) * 255 ≤ 255 := by nlinarith
      have hfl : ⌊(1 - Real.log (n : ℝ) / Real.log 1024) * 255⌋ ≤ 255 := by
        have h255 : ⌊(255 : ℝ)⌋ = 255 := by norm_num
        have := Int.floor_mono hval
        rw [h255] at this
        exact this
      omega

theorem xray_get_pixel_color_floor_witness :
    ((zSet [⟨0, 0, 5⟩] 0 0).card = 1) ∧
    xrayGetPixelColor (xrayProcessDiscretized xrayEmpty [⟨0, 0, 5⟩]) 0 0 =
      some ⟨255, 255, 255, 255⟩ := by
  have hcard : (zSet [(⟨0, 0, 5⟩ : Point3 ℕ)] 0 0).card = 1 := by decide
  have hm := (xray_get_pixel_color_floor [⟨0, 0, 5⟩] 0 0).2 1 hcard.symm (le_refl 1)
  refine ⟨hcard, hm.1.trans ?_⟩
  rw [xrayPixelValue_one]

/-- Claim C1, counterexample to the claim as stated: at a column with exactly
3 distinct z buckets the code yields gray value 214 (truncation of
`(1 - ln 3 / ln 1024) * 255 ≈ 214.58`), while the claimed rounding formula
gives 215. -/
theorem xray_round_counterexample :
    ((zSet [⟨0, 0, 1⟩, ⟨0, 0, 2⟩, ⟨0, 0, 3⟩] 0 0).card = 3) ∧
    xrayGetPixelColor
        (xrayProcessDiscretized xrayEmpty [⟨0, 0, 1⟩, ⟨0, 0, 2⟩, ⟨0, 0, 3⟩]) 0 0 =
      some ⟨214, 214, 214, 255⟩ ∧
    (round ((1 - Real.log 3 / Real.log 1024) * 255)).toNat = 215 ∧
    xrayGetPixelColor
        (xrayProcessDiscretized xrayEmpty [⟨0, 0, 1⟩, ⟨0, 0, 2⟩, ⟨0, 0, 3⟩]) 0 0 ≠
      some ⟨(round ((1 - Real.log 3 / Real.log 1024) * 255)).toNat,
            (round ((1 - Real.log 3 / Real.log 1024) * 255)).toNat,
            (round ((1 - Real.log 3 / Real.log 1024) * 255)).toNat, 255⟩ := by
  have hcard : (zSet [(⟨0, 0, 1⟩ : Point3 ℕ), ⟨0, 0, 2⟩, ⟨0, 0, 3⟩] 0 0).card = 3 := by
    decide
  have hne : zSet [(⟨0, 0, 1⟩ : Point3 ℕ), ⟨0, 0, 2⟩, ⟨0, 0, 3⟩] 0 0 ≠ ∅ := by decide
  have hget := (xrayGet_process_char [⟨0, 0, 1⟩, ⟨0, 0, 2⟩, ⟨0, 0, 3⟩] 0 0).2 hne
  rw [hcard, xrayPixelValue_three] at hget
  have hround : (round ((1 - Real.log 3 / Real.log 1024) * 255)).toNat = 215 := by
    rw [xray_round_value_three]
    decide
  refine ⟨hcard, hget, hround, ?_⟩
  rw [hget, hround]
  simp

theorem xrayPixelValue_antitone {n m : ℕ} (h : n ≤ m) :
    xrayPixelValue m ≤ xrayPixelValue n := by
  rcases Nat.eq_zero_or_pos n with hn | hn
  · subst hn
    have h0 : xrayPixelValue 0 = 255 := by
      unfold xrayPixelValue f64ToU8R
      norm_num [Real.log_zero]
    rw [h0]
    exact xrayPixelValue_le_255 m
  · unfold xrayPixelValue f64ToU8R
    apply min_le_min (le_refl 255)
    apply Int.toNat_le_toNat
    apply Int.floor_mono
    have hL : 0 < Real.log 1024 := Real.log_pos (by norm_num)
    have hlog : Real.log (n : ℝ) ≤ Real.log (m : ℝ) :=
      Real.log_le_log (by exact_mod_cast hn) (by exact_mod_cast h)
    have hdiv : Real.log (n : ℝ) / Real.log 1024 ≤ Real.log (m : ℝ) / Real.log 1024 :=
      (div_le_div_right hL).mpr hlog
    nlinarith

/-- Claim C9: for the x-ray strategy, inserting one more discretized point
into column `(x, y)` never increases the gray value returned by
`get_pixel_color (x, y)`, whether the new z bucket is new or already
present. -/
theorem xray_pixel_monotone_darkness (s : XRayZBuckets) (d : Point3 ℕ)
    (c1 c2 : Color ℕ)
    (h1 : xrayGetPixelColor s d.x d.y = some c1)
    (h2 : xrayGetPixelColor (xrayInsert s d) d.x d.y = some c2) :
    c2.red ≤ c1.red ∧ c2.green ≤ c1.green ∧ c2.blue ≤ c1.blue := by
  unfold xrayGetPixelColor at h1 h2
  obtain ⟨zs, hzs, hc1⟩ := Option.map_eq_some'.mp h1
  obtain ⟨zs2, hzs2, hc2⟩ := Option.map_eq_some'.mp h2
  have hins : xrayInsert s d (d.x, d.y) = some (insert d.z ((s (d.x, d.y)).getD ∅)) := by
    unfold xrayInsert
    rw [if_pos rfl]
  rw [hins, hzs] at hzs2
  simp only [Option.getD_some, Option.some.injEq] at hzs2
  have hcard : zs.card ≤ zs2.card := by
    rw [← hzs2]
    exact Finset.card_le_card (Finset.subset_insert _ _)
  have hv := xrayPixelValue_antitone hcard
  subst hc1
  subst hc2
  exact ⟨hv, hv, hv⟩

theorem xray_pixel_monotone_darkness_witness :
    xrayGetPixelColor (xrayProcessDiscretized xrayEmpty [⟨0, 0, 5⟩]) 0 0 =
      some ⟨255, 255, 255, 255⟩ ∧
    xrayGetPixelColor
        (xrayInsert (xrayProcessDiscretized xrayEmpty [⟨0, 0, 5⟩]) ⟨0, 0, 7⟩) 0 0 =
      some ⟨229, 229, 229, 255⟩ ∧
    (229 : ℕ) ≤ 255 := by
  have hs1 : xrayProcessDiscretized xrayEmpty [(⟨0, 0, 5⟩ : Point3 ℕ)] (0, 0) =
      some ({5} : Finset ℕ) := by decide
  have hget1 : xrayGetPixelColor (xrayProcessDiscretized xrayEmpty [⟨0, 0, 5⟩]) 0 0 =
      some ⟨255, 255, 255, 255⟩ := by
    unfold xrayGetPixelColor
    rw [hs1]
    simp [xrayPixelValue_one]
  have hs2 : xrayInsert (xrayProcessDiscretized xrayEmpty [(⟨0, 0, 5⟩ : Point3 ℕ)])
      (⟨0, 0, 7⟩ : Point3 ℕ) (0, 0) = some (insert 7 ({5} : Finset ℕ)) := by
    unfold xrayInsert
    rw [if_pos rfl, hs1]
    rfl
  have hcard2 : (insert 7 ({5} : Finset ℕ)).card = 2 := by decide
  have hget2 : xrayGetPixelColor
      (xrayInsert (xrayProcessDiscretized xrayEmpty [⟨0, 0, 5⟩]) ⟨0, 0, 7⟩) 0 0 =
      some ⟨229, 229, 229, 255⟩ := by
    unfold xrayGetPixelColor
    rw [hs2]
    simp only [Option.map_some']
    rw [hcard2, xrayPixelValue_two]
  have hmono := xray_pixel_monotone_darkness
    (xrayProcessDiscretized xrayEmpty [⟨0, 0, 5⟩]) ⟨0, 0, 7⟩
    ⟨255, 255, 255, 255⟩ ⟨229, 229, 229, 255⟩ hget1 hget2
  exact ⟨hget1, hget2, hmono.1⟩
